import Mathlib

/-!
CRYPTEX: a shallow embedding of `CipherTool` (src/main.cpp).

The cipher engine of `src/main.cpp` is translated function by function, with the two file
handlers of `UserInterface` that call it:

* a `std::string` is a list of bytes, a byte being its value in `0..255`;
* `int` is `Int`, every `int` addition wrapped to 32 bits two's complement
  (`wrap32`), and `%` is the truncating remainder of C++ (`Int.tmod`);
* `std::isalpha`, `std::isupper`, `std::isdigit` are those of the "C" locale
  (the program never calls `setlocale`): the ASCII letters and digits; the bytes 128..255
  are neither;
* a call that does not return a value (an exception thrown by `std::stoi`, the
  undefined `i % 0`) is an `Except.error` carrying the `Fault`.
-/

namespace Cryptex

/-- One `char` of a `std::string`, by its byte value. -/
abbrev Byte := Fin 256

/-- The bytes of a string literal (all literals used below are ASCII). -/
def bytes (s : String) : List Byte :=
  s.toList.map (fun c => Fin.ofNat c.toNat)

/-- Ways in which a call of the engine ends without returning a value. -/
inductive Fault where
  /-- The exception `std::invalid_argument`, thrown by `std::stoi` when no digits are found. -/
  | invalidArgument
  /-- The exception `std::out_of_range`, thrown by `std::stoi` when the value does not fit `int`. -/
  | outOfRange
  /-- Integer remainder with divisor zero (`i % key.length()` on an empty key). -/
  | moduloByZero
  deriving DecidableEq, Repr

deriving instance DecidableEq for Except

/-- The constant `static const int MAX_INPUT_LENGTH = 1024;`. -/
def MAX_INPUT_LENGTH : Nat := 1024

/-- Reduction of a mathematical integer to a 32-bit two's complement `int`. -/
def wrap32 (z : Int) : Int := (z + 2147483648) % 4294967296 - 2147483648

/-- The cast `static_cast<char>(z)`: the low eight bits of `z`. -/
def toChar (z : Int) : Byte := Fin.ofNat (z % 256).toNat

/-- The classification `std::isupper` in the "C" locale. -/
def isupper (c : Byte) : Bool := decide (65 ≤ c.val) && decide (c.val ≤ 90)

/-- The classification `std::islower` in the "C" locale (the `else` branch of `isupper` under `isalpha`). -/
def islower (c : Byte) : Bool := decide (97 ≤ c.val) && decide (c.val ≤ 122)

/-- The classification `std::isalpha` in the "C" locale. -/
def isalpha (c : Byte) : Bool := isupper c || islower c

/-- The classification `std::isdigit`. -/
def isdigit (c : Byte) : Bool := decide (48 ≤ c.val) && decide (c.val ≤ 57)

/-- The expression `(c - base + key + bias) % bias + base` of `caesarCipher`, in `int`
arithmetic, cast back to `char`. -/
def shiftChar (c : Byte) (base : Int) (bias : Int) (key : Int) : Byte :=
  toChar (wrap32 (Int.tmod (wrap32 (wrap32 (wrap32 ((c.val : Int) - base) + key) + bias)) bias
    + base))

/-- The body of the `for` loop of `caesarCipher` for one character. -/
def caesarChar (key : Int) (c : Byte) : Byte :=
  if isalpha c then
    if isupper c then shiftChar c 65 26 key
    else shiftChar c 97 26 key
  else if isdigit c then shiftChar c 48 10 key
  else c

/-- Member `CipherTool::caesarCipher`: the loop visits the positions in order and rewrites position
`i` from the character at position `i` alone. -/
def caesarCipher (text : List Byte) (key : Int) : List Byte :=
  match text with
  | [] => []
  | c :: rest => caesarChar key c :: caesarCipher rest key

/-- Member `CipherTool::encryptCaesar`. -/
def encryptCaesar (text : List Byte) (key : Int) : List Byte :=
  caesarCipher text key

/-- Member `CipherTool::decryptCaesar`: the key is negated in `int`. -/
def decryptCaesar (text : List Byte) (key : Int) : List Byte :=
  caesarCipher text (wrap32 (-key))

/-- The loop of `xorEncrypt` from index `i` on: `result[i] = result[i] ^ key[i % key.length()]`.
With an empty key the first iteration evaluates `i % 0`. -/
def xorLoop (key : List Byte) (i : Nat) (text : List Byte) : Except Fault (List Byte) :=
  match text with
  | [] => .ok []
  | c :: rest =>
    if h : key.length = 0 then .error .moduloByZero
    else
      match xorLoop key (i + 1) rest with
      | .error f => .error f
      | .ok tail =>
        .ok ((c ^^^ key.get ⟨i % key.length, Nat.mod_lt i (Nat.pos_of_ne_zero h)⟩) :: tail)

/-- Member `CipherTool::xorEncrypt`. -/
def xorEncrypt (text key : List Byte) : Except Fault (List Byte) :=
  xorLoop key 0 text

/-- Member `CipherTool::encryptXOR`. -/
def encryptXOR (text key : List Byte) : Except Fault (List Byte) :=
  xorEncrypt text key

/-- Member `CipherTool::decryptXOR`. -/
def decryptXOR (text key : List Byte) : Except Fault (List Byte) :=
  xorEncrypt text key

/-- The classification `std::isspace` in the "C" locale. -/
def isspace (c : Byte) : Bool := decide (c.val = 32) || (decide (9 ≤ c.val) && decide (c.val ≤ 13))

/-- The value of a run of decimal digits. -/
def digitsValue (ds : List Byte) : Int :=
  ds.foldl (fun acc d => acc * 10 + ((d.val : Int) - 48)) 0

/-- The call `std::stoi(key)`: leading white space, an optional sign, then the longest run of
decimal digits; what follows the digits is ignored. -/
def stoi (s : List Byte) : Except Fault Int :=
  let s1 := s.dropWhile isspace
  let negative := decide (s1.head? = some 45)
  let s2 := if s1.head? = some 45 ∨ s1.head? = some 43 then s1.tail else s1
  let ds := s2.takeWhile isdigit
  if ds = [] then .error .invalidArgument
  else
    let v := if negative then - digitsValue ds else digitsValue ds
    if v < -2147483648 ∨ 2147483647 < v then .error .outOfRange else .ok v

/-- The chunk loop shared by `encryptFile` and `decryptFile`:
`while (inFile) { inFile.read(buffer, 1024); if (gcount > 0) { ...; outFile.write(...) } }`.
`input` is what is left of the input file, `out` what has been written. A read that finds fewer
than 1024 bytes sets the stream's fail bit, which ends the loop. `none` stands for a loop that
is cut off by `fuel`. -/
def fileLoop (perChunk : List Byte → Except Fault (List Byte)) :
    Nat → List Byte → List Byte → Option (Except Fault (List Byte))
  | 0, _, _ => none
  | fuel + 1, input, out =>
    let chunk := input.take MAX_INPUT_LENGTH
    let written : Except Fault (List Byte) :=
      if 0 < chunk.length then
        match perChunk chunk with
        | .error f => .error f
        | .ok e => .ok (out ++ e)
      else .ok out
    match written with
    | .error f => some (.error f)
    | .ok out1 =>
      if chunk.length < MAX_INPUT_LENGTH then some (.ok out1)
      else fileLoop perChunk fuel (input.drop MAX_INPUT_LENGTH) out1

/-- The body of `encryptFile` for one chunk (`method == 1` is Caesar, anything else XOR). -/
def encryptChunk (key : List Byte) (method : Int) (chunk : List Byte) :
    Except Fault (List Byte) :=
  if method = 1 then
    match stoi key with
    | .error f => .error f
    | .ok numKey => .ok (encryptCaesar chunk numKey)
  else encryptXOR chunk key

/-- The body of `decryptFile` for one chunk. -/
def decryptChunk (key : List Byte) (method : Int) (chunk : List Byte) :
    Except Fault (List Byte) :=
  if method = 1 then
    match stoi key with
    | .error f => .error f
    | .ok numKey => .ok (decryptCaesar chunk numKey)
  else decryptXOR chunk key

/-- Member `CipherTool::encryptFile`, both files opened: from the content of the input file to
the content written to the output file when the call returns `true`. -/
def encryptFile (input : List Byte) (key : List Byte) (method : Int) :
    Option (Except Fault (List Byte)) :=
  fileLoop (encryptChunk key method) (input.length + 1) input []

/-- Member `CipherTool::decryptFile`, both files opened. -/
def decryptFile (input : List Byte) (key : List Byte) (method : Int) :
    Option (Except Fault (List Byte)) :=
  fileLoop (decryptChunk key method) (input.length + 1) input []

/-- The run of `xorEncrypt` started at key index `i`, as a total function (the key byte is
looked up with a default that is never used when the key is not empty). -/
def keystream (key : List Byte) (i : Nat) (text : List Byte) : List Byte :=
  match text with
  | [] => []
  | c :: rest => (c ^^^ key.getD (i % key.length) 0) :: keystream key (i + 1) rest

/-- The concatenation of `g` over the consecutive chunks of `MAX_INPUT_LENGTH` bytes of
`input`. -/
def chunked (g : List Byte → List Byte) (input : List Byte) : List Byte :=
  if input = [] then []
  else g (input.take MAX_INPUT_LENGTH) ++ chunked g (input.drop MAX_INPUT_LENGTH)
termination_by input.length
decreasing_by
  rename_i h
  have hpos := List.length_pos.mpr h
  simp only [List.length_drop, MAX_INPUT_LENGTH]
  omega

/-- The character of the decimal digit `d`. -/
def digitByte (d : Nat) : Byte := Fin.ofNat (48 + d)

/-- The call `std::to_string(k)` on an `int`: a minus sign for a negative value, then the decimal
digits, most significant first. -/
def to_string (k : Int) : List Byte :=
  let ds := if k = 0 then [48] else (Nat.digits 10 k.natAbs).reverse.map digitByte
  if k < 0 then 45 :: ds else ds

/-- Member `UserInterface::handleFileEncryption`, from the answers read at the prompts to the
outcome of the call of `encryptFile`: `choice` is the method entered, `shiftKey` the answer to
the shift key prompt (asked when the method is 1), `keyLine` the answer to the key string prompt
(asked otherwise), `input` the content of the input file. -/
def handleFileEncryption (choice : Int) (input : List Byte) (shiftKey : Int)
    (keyLine : List Byte) : Option (Except Fault (List Byte)) :=
  let method := if choice < 1 ∨ choice > 2 then 1 else choice
  let key := if method = 1 then to_string shiftKey else keyLine
  encryptFile input key method

/-- Member `UserInterface::handleFileDecryption`, as `handleFileEncryption`. -/
def handleFileDecryption (choice : Int) (input : List Byte) (shiftKey : Int)
    (keyLine : List Byte) : Option (Except Fault (List Byte)) :=
  let method := if choice < 1 ∨ choice > 2 then 1 else choice
  let key := if method = 1 then to_string shiftKey else keyLine
  decryptFile input key method

/-! ## Bytes -/

theorem byte_xor_val (a b : Byte) : (a ^^^ b).val = a.val ^^^ b.val := by
  have h : a.val ^^^ b.val < 2 ^ 8 := Nat.xor_lt_two_pow a.isLt b.isLt
  show (a.val ^^^ b.val) % 256 = a.val ^^^ b.val
  exact Nat.mod_eq_of_lt h

theorem byte_xor_cancel (a k : Byte) : (a ^^^ k) ^^^ k = a := by
  apply Fin.ext
  rw [byte_xor_val, byte_xor_val, Nat.xor_assoc, Nat.xor_self, Nat.xor_zero]

/-! ## The XOR loop -/

theorem xorLoop_eq_keystream (key : List Byte) (h : key.length ≠ 0) (text : List Byte) :
    ∀ i, xorLoop key i text = .ok (keystream key i text) := by
  induction text with
  | nil => intro i; rfl
  | cons c rest ih =>
    intro i
    have hi : i % key.length < key.length := Nat.mod_lt i (Nat.pos_of_ne_zero h)
    simp only [xorLoop, keystream, ih, dif_neg h]
    rw [List.getD_eq_getElem _ _ hi]
    rfl

theorem keystream_length (key : List Byte) (text : List Byte) :
    ∀ i, (keystream key i text).length = text.length := by
  induction text with
  | nil => intro i; rfl
  | cons c rest ih => intro i; simp [keystream, ih]

theorem keystream_getElem? (key : List Byte) (text : List Byte) :
    ∀ i j, (keystream key i text)[j]? =
      (text[j]?).map (fun c => c ^^^ key.getD ((i + j) % key.length) 0) := by
  induction text with
  | nil => intro i j; simp [keystream]
  | cons c rest ih =>
    intro i j
    cases j with
    | zero => simp [keystream]
    | succ j =>
      simp only [keystream, List.getElem?_cons_succ, ih]
      have : i + 1 + j = i + (j + 1) := by omega
      rw [this]

theorem keystream_append (key : List Byte) (a b : List Byte) :
    ∀ i, keystream key i (a ++ b) = keystream key i a ++ keystream key (i + a.length) b := by
  induction a with
  | nil => intro i; simp [keystream]
  | cons c rest ih =>
    intro i
    have e : i + 1 + rest.length = i + (rest.length + 1) := by omega
    change keystream key i (c :: (rest ++ b)) = _
    rw [keystream, ih, keystream, List.length_cons, e]
    rfl

theorem keystream_congr (key : List Byte) (text : List Byte) :
    ∀ i j, i % key.length = j % key.length → keystream key i text = keystream key j text := by
  induction text with
  | nil => intro i j _; rfl
  | cons c rest ih =>
    intro i j hij
    simp only [keystream, hij]
    rw [ih (i + 1) (j + 1) (by rw [Nat.add_mod, hij, ← Nat.add_mod])]

theorem keystream_involutive (key : List Byte) (text : List Byte) :
    ∀ i, keystream key i (keystream key i text) = text := by
  induction text with
  | nil => intro i; rfl
  | cons c rest ih => intro i; simp only [keystream, ih, byte_xor_cancel]

/-! ## The chunk loop -/

theorem chunked_nil (g : List Byte → List Byte) : chunked g [] = [] := by
  rw [chunked]; rfl

theorem chunked_cons (g : List Byte → List Byte) (input : List Byte) (h : input ≠ []) :
    chunked g input
      = g (input.take MAX_INPUT_LENGTH) ++ chunked g (input.drop MAX_INPUT_LENGTH) := by
  rw [chunked, if_neg h]

theorem fileLoop_eq_chunked (f : List Byte → Except Fault (List Byte))
    (g : List Byte → List Byte) (hf : ∀ c, c ≠ [] → f c = .ok (g c)) :
    ∀ fuel input out, input.length < fuel * MAX_INPUT_LENGTH →
      fileLoop f fuel input out = some (.ok (out ++ chunked g input)) := by
  intro fuel
  induction fuel with
  | zero => intro input out h; simp at h
  | succ fuel ih =>
    intro input out hlen
    by_cases hnil : input = []
    · subst hnil
      simp [fileLoop, chunked_nil, MAX_INPUT_LENGTH]
    · have hpos : 0 < input.length := List.length_pos.mpr hnil
      have hcpos : 0 < (input.take MAX_INPUT_LENGTH).length := by
        rw [List.length_take, MAX_INPUT_LENGTH]
        omega
      have hchunk : input.take MAX_INPUT_LENGTH ≠ [] := List.length_pos.mp hcpos
      rw [chunked_cons g input hnil]
      simp only [fileLoop, hcpos, if_true, hf _ hchunk]
      by_cases hshort : (input.take MAX_INPUT_LENGTH).length < MAX_INPUT_LENGTH
      · have hle : input.length ≤ MAX_INPUT_LENGTH := by
          simp [MAX_INPUT_LENGTH] at hshort ⊢
          omega
        simp only [hshort, if_true, List.drop_of_length_le hle, chunked_nil, List.append_nil]
      · have hdrop : (input.drop MAX_INPUT_LENGTH).length < fuel * MAX_INPUT_LENGTH := by
          simp [MAX_INPUT_LENGTH] at hshort hlen ⊢
          omega
        simp only [hshort, if_false, ih _ _ hdrop, List.append_assoc]

theorem chunked_length (g : List Byte → List Byte) (hg : ∀ c, (g c).length = c.length)
    (input : List Byte) : (chunked g input).length = input.length := by
  induction input using chunked.induct g with
  | case1 => rw [chunked_nil]
  | case2 input h ih =>
    rw [chunked_cons g input h, List.length_append, hg, ih, ← List.length_append,
      List.take_append_drop]

theorem chunked_keystream_getElem? (key : List Byte) (input : List Byte) :
    ∀ j, (chunked (keystream key 0) input)[j]? =
      (input[j]?).map (fun c => c ^^^ key.getD ((j % MAX_INPUT_LENGTH) % key.length) 0) := by
  induction input using chunked.induct (keystream key 0) with
  | case1 => intro j; simp [chunked_nil]
  | case2 input h ih =>
    intro j
    rw [chunked_cons _ input h, List.getElem?_append]
    by_cases hj : j < MAX_INPUT_LENGTH
    · by_cases hlen : j < input.length
      · have hjt : j < (keystream key 0 (input.take MAX_INPUT_LENGTH)).length := by
          rw [keystream_length, List.length_take]; omega
        rw [if_pos hjt, keystream_getElem?, List.getElem?_take_of_lt hj, Nat.zero_add,
          Nat.mod_eq_of_lt hj]
      · have hjt : ¬ j < (keystream key 0 (input.take MAX_INPUT_LENGTH)).length := by
          rw [keystream_length, List.length_take]; omega
        have hle : input.length ≤ MAX_INPUT_LENGTH := by omega
        rw [if_neg hjt, List.drop_of_length_le hle, chunked_nil,
          List.getElem?_eq_none (by omega : input.length ≤ j)]
        simp
    · by_cases hlen : input.length < MAX_INPUT_LENGTH
      · have hjt : ¬ j < (keystream key 0 (input.take MAX_INPUT_LENGTH)).length := by
          rw [keystream_length, List.length_take]; omega
        rw [if_neg hjt, List.drop_of_length_le (by omega), chunked_nil,
          List.getElem?_eq_none (by omega : input.length ≤ j)]
        simp
      · have hl : (keystream key 0 (input.take MAX_INPUT_LENGTH)).length = MAX_INPUT_LENGTH := by
          rw [keystream_length, List.length_take]; omega
        have hjt : ¬ j < (keystream key 0 (input.take MAX_INPUT_LENGTH)).length := by
          rw [hl]; exact hj
        have hmod : (j - MAX_INPUT_LENGTH) % MAX_INPUT_LENGTH = j % MAX_INPUT_LENGTH := by
          simp only [MAX_INPUT_LENGTH] at hj ⊢
          omega
        have hidx : MAX_INPUT_LENGTH + (j - MAX_INPUT_LENGTH) = j := by omega
        rw [if_neg hjt, hl, ih, List.getElem?_drop, hmod, hidx]

theorem encryptFile_xor_eq (D K : List Byte) (hK : K ≠ []) (method : Int) (hm : method ≠ 1) :
    encryptFile D K method = some (.ok (chunked (keystream K 0) D)) := by
  have hlen : K.length ≠ 0 := fun h => hK (List.length_eq_zero.mp h)
  have hf : ∀ c : List Byte, c ≠ [] → encryptChunk K method c = .ok (keystream K 0 c) := by
    intro c _
    simp only [encryptChunk, if_neg hm, encryptXOR, xorEncrypt, xorLoop_eq_keystream K hlen]
  have := fileLoop_eq_chunked _ _ hf (D.length + 1) D []
    (by simp only [MAX_INPUT_LENGTH]; omega)
  simpa [encryptFile] using this

theorem decryptFile_xor_eq (D K : List Byte) (hK : K ≠ []) (method : Int) (hm : method ≠ 1) :
    decryptFile D K method = some (.ok (chunked (keystream K 0) D)) := by
  have hlen : K.length ≠ 0 := fun h => hK (List.length_eq_zero.mp h)
  have hf : ∀ c : List Byte, c ≠ [] → decryptChunk K method c = .ok (keystream K 0 c) := by
    intro c _
    simp only [decryptChunk, if_neg hm, decryptXOR, xorEncrypt, xorLoop_eq_keystream K hlen]
  have := fileLoop_eq_chunked _ _ hf (D.length + 1) D []
    (by simp only [MAX_INPUT_LENGTH]; omega)
  simpa [decryptFile] using this

/-! ## The Caesar loop -/

theorem caesarCipher_eq_map (text : List Byte) (key : Int) :
    caesarCipher text key = text.map (caesarChar key) := by
  induction text with
  | nil => rfl
  | cons c rest ih => simp only [caesarCipher, List.map_cons, ih]

theorem caesarChar_of_not_alnum (key : Int) (c : Byte)
    (h : ¬ ((65 ≤ c.val ∧ c.val ≤ 90) ∨ (97 ≤ c.val ∧ c.val ≤ 122)
      ∨ (48 ≤ c.val ∧ c.val ≤ 57))) : caesarChar key c = c := by
  have ha : isalpha c = false := by
    simp only [isalpha, isupper, islower, Bool.or_eq_false_iff, Bool.and_eq_false_iff,
      decide_eq_false_iff_not]
    omega
  have hd : isdigit c = false := by
    simp only [isdigit, Bool.and_eq_false_iff, decide_eq_false_iff_not]
    omega
  simp [caesarChar, ha, hd]

/-! ## The claims -/

/-- C1 (the code departs from the claim). The claim is the round trip
`decryptCaesar(encryptCaesar(T, S), S) = T` for every text and every shift. On the text "Z"
with shift 27 the code encrypts to "A", and decrypting "A" with the same shift gives "@"
(`(0 - 27 + 26) % 26` is `-1` under the truncating remainder), not "Z". -/
theorem caesar_round_trip_Z_27 :
    encryptCaesar (bytes "Z") 27 = bytes "A" ∧
    decryptCaesar (encryptCaesar (bytes "Z") 27) 27 = bytes "@" ∧
    decryptCaesar (encryptCaesar (bytes "Z") 27) 27 ≠ bytes "Z" := by
  decide

/-- C2. XOR round trip: for every byte sequence `D` and every non-empty key `K`, `encryptXOR`
returns some `E`, and `decryptXOR` on `E` with the same key returns `D`; both are `xorEncrypt`. -/
theorem xor_round_trip (D K : List Byte) (hK : K ≠ []) :
    ∃ E, encryptXOR D K = .ok E ∧ decryptXOR E K = .ok D ∧
      xorEncrypt D K = .ok E ∧ xorEncrypt E K = .ok D := by
  have hlen : K.length ≠ 0 := fun h => hK (List.length_eq_zero.mp h)
  refine ⟨keystream K 0 D, ?_, ?_, ?_, ?_⟩ <;>
    simp only [encryptXOR, decryptXOR, xorEncrypt, xorLoop_eq_keystream K hlen,
      keystream_involutive]

/-- Witness of C2, the scenario of the specification: "HELLO" under the key "KEY", twice. -/
theorem xor_round_trip_witness :
    bytes "KEY" ≠ [] ∧
    ∃ E, encryptXOR (bytes "HELLO") (bytes "KEY") = .ok E ∧
      decryptXOR E (bytes "KEY") = .ok (bytes "HELLO") ∧
      xorEncrypt (bytes "HELLO") (bytes "KEY") = .ok E ∧
      xorEncrypt E (bytes "KEY") = .ok (bytes "HELLO") :=
  ⟨by decide, xor_round_trip (bytes "HELLO") (bytes "KEY") (by decide)⟩

/-- C3 (the code departs from the claim). The claim is that what `encryptFile` writes with the
XOR method is byte-identical to `encryptXOR` on the whole input, the key index following the
offset since the start of the stream. On 1025 zero bytes under the key "KEY" the two differ:
`xorEncrypt` starts its index at 0 on every chunk, so byte 1024 is XORed with `K`, the key byte
of index 0, where the whole-input run uses `E`, the key byte of index 1024 mod 3. The text path
of the tool encrypts a whole line with `encryptXOR`; `decryptFile` on that ciphertext, with the
same key, does not give the data back: it returns byte 14 at position 1024, where the data have
byte 0. -/
theorem encryptFile_xor_ne_whole :
    encryptFile (List.replicate 1025 0) (bytes "KEY") 2
      ≠ some (encryptXOR (List.replicate 1025 0) (bytes "KEY")) ∧
    ∃ E out, encryptXOR (List.replicate 1025 0) (bytes "KEY") = .ok E ∧
      decryptFile E (bytes "KEY") 2 = some (.ok out) ∧
      out[1024]? = some 14 ∧ (List.replicate 1025 (0 : Byte))[1024]? = some 0 := by
  have hK : bytes "KEY" ≠ [] := by decide
  have hlen : (bytes "KEY").length ≠ 0 := by decide
  constructor
  · intro h
    rw [encryptFile_xor_eq _ _ hK 2 (by decide), encryptXOR, xorEncrypt,
      xorLoop_eq_keystream _ hlen] at h
    have h2 := congrArg (fun l : List Byte => l[1024]?)
      (Except.ok.inj (Option.some.inj h))
    simp only [chunked_keystream_getElem?, keystream_getElem?, MAX_INPUT_LENGTH] at h2
    rw [List.getElem?_replicate] at h2
    revert h2
    decide
  · refine ⟨keystream (bytes "KEY") 0 (List.replicate 1025 0),
      chunked (keystream (bytes "KEY") 0) (keystream (bytes "KEY") 0 (List.replicate 1025 0)),
      ?_, decryptFile_xor_eq _ _ hK 2 (by decide), ?_, ?_⟩
    · rw [encryptXOR, xorEncrypt, xorLoop_eq_keystream _ hlen]
    · simp only [chunked_keystream_getElem?, keystream_getElem?, MAX_INPUT_LENGTH]
      rw [List.getElem?_replicate]
      decide
    · rw [List.getElem?_replicate]
      decide

/-- C4 (the code departs from the claim). The claim is that for every shift, negative or of
any magnitude, an uppercase letter is mapped to an uppercase letter, a lowercase letter to a
lowercase letter and a digit to a digit. With shift -27 the code maps "A" to "@" (64), "a" to
byte 96 and "0" to ")" (41): the remainders `(0 - 27 + 26) % 26 = -1` and
`(0 - 27 + 10) % 10 = -7` are negative, and none of the three results is a letter or a digit. -/
theorem caesar_shift_minus_27_leaves_class :
    caesarCipher [65, 97, 48] (-27) = [64, 96, 41] ∧
    Int.tmod (0 - 27 + 26) 26 = -1 ∧ Int.tmod (0 - 27 + 10) 10 = -7 ∧
    isupper 64 = false ∧ islower 96 = false ∧ isdigit 41 = false := by
  decide

/-- C5. XOR pointwise definition: for every byte sequence `data`, every non-empty `key` and every
index `i < length(data)`, `xorEncrypt(data, key)` returns a sequence whose byte `i` is
`data[i] XOR key[i mod length(key)]`. -/
theorem xorEncrypt_pointwise (data key : List Byte) (hk : key ≠ []) (i : Nat)
    (hi : i < data.length) :
    ∃ r, xorEncrypt data key = .ok r ∧
      r[i]? = some (data[i] ^^^
        key.get ⟨i % key.length, Nat.mod_lt i (List.length_pos.mpr hk)⟩) := by
  have hlen : key.length ≠ 0 := fun h => hk (List.length_eq_zero.mp h)
  have hm : i % key.length < key.length := Nat.mod_lt i (List.length_pos.mpr hk)
  refine ⟨keystream key 0 data, by rw [xorEncrypt, xorLoop_eq_keystream key hlen], ?_⟩
  rw [keystream_getElem?, List.getElem?_eq_getElem hi, Option.map_some', Nat.zero_add,
    List.getD_eq_getElem _ _ hm]
  rfl

/-- Witness of C5: byte 4 of "HELLO" under the key "KEY" is `O XOR E`, the key index being
4 mod 3 = 1. -/
theorem xorEncrypt_pointwise_witness :
    bytes "KEY" ≠ [] ∧ 4 < (bytes "HELLO").length ∧
    ∃ r, xorEncrypt (bytes "HELLO") (bytes "KEY") = .ok r ∧
      r[4]? = some ((bytes "HELLO")[4] ^^^
        (bytes "KEY").get ⟨4 % (bytes "KEY").length,
          Nat.mod_lt 4 (List.length_pos.mpr (by decide))⟩) :=
  ⟨by decide, by decide, xorEncrypt_pointwise (bytes "HELLO") (bytes "KEY") (by decide) 4
    (by decide)⟩

/-- C6. Length preservation: `caesarCipher(T, s)` has the length of `T` for every text and every
shift, and for every byte sequence `D` and every non-empty key `K`, `xorEncrypt(D, K)` returns a
sequence of the length of `D`. -/
theorem cipher_length_preserved (T : List Byte) (s : Int) (D K : List Byte) (hK : K ≠ []) :
    (caesarCipher T s).length = T.length ∧
    ∃ r, xorEncrypt D K = .ok r ∧ r.length = D.length := by
  have hlen : K.length ≠ 0 := fun h => hK (List.length_eq_zero.mp h)
  refine ⟨by rw [caesarCipher_eq_map, List.length_map], keystream K 0 D, ?_,
    keystream_length K D 0⟩
  rw [xorEncrypt, xorLoop_eq_keystream K hlen]

/-- Witness of C6: "Hello, World!" with shift 5, and "HELLO" under the key "KEY". -/
theorem cipher_length_preserved_witness :
    bytes "KEY" ≠ [] ∧
    (caesarCipher (bytes "Hello, World!") 5).length = (bytes "Hello, World!").length ∧
    ∃ r, xorEncrypt (bytes "HELLO") (bytes "KEY") = .ok r ∧ r.length = (bytes "HELLO").length :=
  ⟨by decide, cipher_length_preserved (bytes "Hello, World!") 5 (bytes "HELLO") (bytes "KEY")
    (by decide)⟩

/-- C7. Non-alphanumeric invariance: for every text `T`, every shift `s` and every position `i`,
if `T[i]` is not an ASCII letter (65..90, 97..122) or digit (48..57), then byte `i` of
`caesarCipher(T, s)` is `T[i]`. -/
theorem caesar_fixes_non_alnum (T : List Byte) (s : Int) (i : Nat) (hi : i < T.length)
    (h : ¬ ((65 ≤ T[i].val ∧ T[i].val ≤ 90) ∨ (97 ≤ T[i].val ∧ T[i].val ≤ 122)
      ∨ (48 ≤ T[i].val ∧ T[i].val ≤ 57))) :
    (caesarCipher T s)[i]? = some T[i] := by
  rw [caesarCipher_eq_map, List.getElem?_map, List.getElem?_eq_getElem hi, Option.map_some',
    caesarChar_of_not_alnum s _ h]

/-- Witness of C7, the scenario of the specification: in "Hello, World!" with shift 5 the comma
(position 5), the space (position 6) and the exclamation mark (position 12) are unchanged, and
only the letters are shifted: the result is "Mjqqt, Btwqi!". -/
theorem caesar_fixes_non_alnum_witness :
    caesarCipher (bytes "Hello, World!") 5 = bytes "Mjqqt, Btwqi!" ∧
    (caesarCipher (bytes "Hello, World!") 5)[5]? = some 44 ∧
    (caesarCipher (bytes "Hello, World!") 5)[6]? = some 32 ∧
    (caesarCipher (bytes "Hello, World!") 5)[12]? = some 33 :=
  ⟨by decide,
    caesar_fixes_non_alnum (bytes "Hello, World!") 5 5 (by decide) (by decide),
    caesar_fixes_non_alnum (bytes "Hello, World!") 5 6 (by decide) (by decide),
    caesar_fixes_non_alnum (bytes "Hello, World!") 5 12 (by decide) (by decide)⟩

/-- C8 (the code departs from the claim). The claim is that the XOR cipher with the empty key
fails with an `InvalidKey` error for every byte sequence. The code has no key check: on the empty
byte sequence with the empty key the loop of `xorEncrypt` runs no iteration and `xorEncrypt`,
`encryptXOR` and `decryptXOR` return the empty sequence; nothing fails. -/
theorem xorEncrypt_empty_empty_returns :
    xorEncrypt [] [] = .ok [] ∧ encryptXOR [] [] = .ok [] ∧ decryptXOR [] [] = .ok [] := by
  decide

/-- C9 as stated fails: `caesarCipher("Abc123", 3)` is not "Deg456". -/
theorem caesar_Abc123_ne_Deg456 :
    caesarCipher (bytes "Abc123") 3 ≠ bytes "Deg456" ∧
    encryptCaesar (bytes "Abc123") 3 ≠ bytes "Deg456" := by
  decide

/-- C9, amended. Concrete scenario 1: `encryptCaesar("Abc123", 3)`, that is
`caesarCipher("Abc123", 3)`, equals "Def456". -/
theorem caesar_Abc123_eq_Def456 :
    encryptCaesar (bytes "Abc123") 3 = bytes "Def456" ∧
    caesarCipher (bytes "Abc123") 3 = bytes "Def456" := by
  decide

/-- C10 as stated fails: `caesarCipher("Deg456", -3)` is not "Abc123". -/
theorem caesar_Deg456_ne_Abc123 :
    caesarCipher (bytes "Deg456") (-3) ≠ bytes "Abc123" ∧
    decryptCaesar (bytes "Deg456") 3 ≠ bytes "Abc123" := by
  decide

/-- C10, amended. Concrete scenario 2: `caesarCipher("Deg456", -3)`, that is
`decryptCaesar("Deg456", 3)`, equals "Abd123". -/
theorem caesar_Deg456_eq_Abd123 :
    caesarCipher (bytes "Deg456") (-3) = bytes "Abd123" ∧
    decryptCaesar (bytes "Deg456") 3 = bytes "Abd123" := by
  decide

/-! ## Arithmetic of one shifted character -/

theorem wrap32_of_range (z : Int) (h1 : -2147483648 ≤ z) (h2 : z ≤ 2147483647) :
    wrap32 z = z := by
  unfold wrap32
  omega

theorem toChar_val (z : Int) (h1 : 0 ≤ z) (h2 : z < 256) : ((toChar z).val : Int) = z := by
  have h : (z % 256).toNat % 256 = z.toNat := by omega
  show (((z % 256).toNat % 256 : Nat) : Int) = z
  rw [h]
  omega

/-- The value of `shiftChar` on a letter (`base` 65 or 97, `bias` 26) when no addition
overflows and the operand of `%` is not negative. -/
theorem shiftChar_letter_val (c : Byte) (base : Int) (key : Int)
    (hbase : base = 65 ∨ base = 97)
    (hc1 : base ≤ (c.val : Int)) (hc2 : (c.val : Int) < base + 26)
    (hlo : -26 ≤ key) (hhi : key ≤ 2147483596) :
    ((shiftChar c base 26 key).val : Int) = base + ((c.val : Int) - base + key + 26) % 26 := by
  have hx : 0 ≤ (c.val : Int) - base + key + 26 := by omega
  unfold shiftChar
  rw [wrap32_of_range ((c.val : Int) - base) (by omega) (by omega),
    wrap32_of_range ((c.val : Int) - base + key) (by omega) (by omega),
    wrap32_of_range ((c.val : Int) - base + key + 26) (by omega) (by omega),
    Int.tmod_eq_emod hx (by decide)]
  have hm1 : 0 ≤ ((c.val : Int) - base + key + 26) % 26 := Int.emod_nonneg _ (by decide)
  have hm2 : ((c.val : Int) - base + key + 26) % 26 < 26 := Int.emod_lt_of_pos _ (by decide)
  rw [wrap32_of_range _ (by omega) (by omega), toChar_val _ (by omega) (by omega)]
  omega

/-- The value of `shiftChar` on a digit (`base` 48, `bias` 10) when no addition overflows and
the operand of `%` is not negative. -/
theorem shiftChar_digit_val (c : Byte) (key : Int)
    (hc1 : 48 ≤ (c.val : Int)) (hc2 : (c.val : Int) < 58)
    (hlo : -10 ≤ key) (hhi : key ≤ 2147483628) :
    ((shiftChar c 48 10 key).val : Int) = 48 + ((c.val : Int) - 48 + key + 10) % 10 := by
  have hx : 0 ≤ (c.val : Int) - 48 + key + 10 := by omega
  unfold shiftChar
  rw [wrap32_of_range ((c.val : Int) - 48) (by omega) (by omega),
    wrap32_of_range ((c.val : Int) - 48 + key) (by omega) (by omega),
    wrap32_of_range ((c.val : Int) - 48 + key + 10) (by omega) (by omega),
    Int.tmod_eq_emod hx (by decide)]
  have hm1 : 0 ≤ ((c.val : Int) - 48 + key + 10) % 10 := Int.emod_nonneg _ (by decide)
  have hm2 : ((c.val : Int) - 48 + key + 10) % 10 < 10 := Int.emod_lt_of_pos _ (by decide)
  rw [wrap32_of_range _ (by omega) (by omega), toChar_val _ (by omega) (by omega)]
  omega

theorem caesarChar_upper (key : Int) (c : Byte) (h1 : 65 ≤ c.val) (h2 : c.val ≤ 90) :
    caesarChar key c = shiftChar c 65 26 key := by
  have hu : isupper c = true := by simp [isupper, h1, h2]
  simp [caesarChar, isalpha, hu]

theorem caesarChar_lower (key : Int) (c : Byte) (h1 : 97 ≤ c.val) (h2 : c.val ≤ 122) :
    caesarChar key c = shiftChar c 97 26 key := by
  have hl : islower c = true := by simp [islower, h1, h2]
  have hu : isupper c = false := by
    simp only [isupper, Bool.and_eq_false_iff, decide_eq_false_iff_not]
    omega
  simp [caesarChar, isalpha, hu, hl]

theorem caesarChar_digit (key : Int) (c : Byte) (h1 : 48 ≤ c.val) (h2 : c.val ≤ 57) :
    caesarChar key c = shiftChar c 48 10 key := by
  have hd : isdigit c = true := by simp [isdigit, h1, h2]
  have ha : isalpha c = false := by
    simp only [isalpha, isupper, islower, Bool.or_eq_false_iff, Bool.and_eq_false_iff,
      decide_eq_false_iff_not]
    omega
  simp [caesarChar, ha, hd]

/-- Two shifts in a row on one character, when neither overflows nor makes the operand of `%`
negative: the result is the character whose offset is the sum of both. -/
theorem caesarChar_twice (k1 k2 : Int) (c : Byte)
    (h1lo : -10 ≤ k1) (h1hi : k1 ≤ 2147483596) (h2lo : -10 ≤ k2) (h2hi : k2 ≤ 2147483596) :
    ((65 ≤ c.val ∧ c.val ≤ 90) →
      ((caesarChar k2 (caesarChar k1 c)).val : Int) = 65 + ((c.val : Int) - 65 + k1 + k2) % 26) ∧
    ((97 ≤ c.val ∧ c.val ≤ 122) →
      ((caesarChar k2 (caesarChar k1 c)).val : Int) = 97 + ((c.val : Int) - 97 + k1 + k2) % 26) ∧
    ((48 ≤ c.val ∧ c.val ≤ 57) →
      ((caesarChar k2 (caesarChar k1 c)).val : Int) = 48 + ((c.val : Int) - 48 + k1 + k2) % 10) := by
  refine ⟨?_, ?_, ?_⟩
  · rintro ⟨h1, h2⟩
    have e1 := shiftChar_letter_val c 65 k1 (Or.inl rfl) (by omega) (by omega) (by omega) h1hi
    rw [← caesarChar_upper k1 c h1 h2] at e1
    have e2 := shiftChar_letter_val (caesarChar k1 c) 65 k2 (Or.inl rfl) (by omega) (by omega)
      (by omega) h2hi
    rw [← caesarChar_upper k2 _ (by omega) (by omega)] at e2
    omega
  · rintro ⟨h1, h2⟩
    have e1 := shiftChar_letter_val c 97 k1 (Or.inr rfl) (by omega) (by omega) (by omega) h1hi
    rw [← caesarChar_lower k1 c h1 h2] at e1
    have e2 := shiftChar_letter_val (caesarChar k1 c) 97 k2 (Or.inr rfl) (by omega) (by omega)
      (by omega) h2hi
    rw [← caesarChar_lower k2 _ (by omega) (by omega)] at e2
    omega
  · rintro ⟨h1, h2⟩
    have e1 := shiftChar_digit_val c k1 (by omega) (by omega) h1lo (by omega)
    rw [← caesarChar_digit k1 c h1 h2] at e1
    have e2 := shiftChar_digit_val (caesarChar k1 c) k2 (by omega) (by omega) h2lo (by omega)
    rw [← caesarChar_digit k2 _ (by omega) (by omega)] at e2
    omega

theorem byte_class (c : Byte) :
    (65 ≤ c.val ∧ c.val ≤ 90) ∨ (97 ≤ c.val ∧ c.val ≤ 122) ∨ (48 ≤ c.val ∧ c.val ≤ 57) ∨
    ¬ ((65 ≤ c.val ∧ c.val ≤ 90) ∨ (97 ≤ c.val ∧ c.val ≤ 122) ∨ (48 ≤ c.val ∧ c.val ≤ 57)) := by
  omega

theorem caesarChar_round_trip (S : Int) (h1 : -10 ≤ S) (h2 : S ≤ 10) (c : Byte) :
    caesarChar (wrap32 (-S)) (caesarChar S c) = c := by
  rw [wrap32_of_range (-S) (by omega) (by omega)]
  have h := caesarChar_twice S (-S) c h1 (by omega) (by omega) (by omega)
  rcases byte_class c with hc | hc | hc | hc
  · have := h.1 hc
    exact Fin.ext (by omega)
  · have := h.2.1 hc
    exact Fin.ext (by omega)
  · have := h.2.2 hc
    exact Fin.ext (by omega)
  · rw [caesarChar_of_not_alnum S c hc, caesarChar_of_not_alnum (-S) c hc]

theorem caesarChar_compose (a b : Int) (ha : 0 ≤ a) (hb : 0 ≤ b) (hab : a + b ≤ 2147483596)
    (c : Byte) : caesarChar b (caesarChar a c) = caesarChar (a + b) c := by
  have h := caesarChar_twice a b c (by omega) (by omega) (by omega) (by omega)
  rcases byte_class c with hc | hc | hc | hc
  · have e := shiftChar_letter_val c 65 (a + b) (Or.inl rfl) (by omega) (by omega) (by omega) hab
    rw [← caesarChar_upper (a + b) c hc.1 hc.2] at e
    have := h.1 hc
    exact Fin.ext (by omega)
  · have e := shiftChar_letter_val c 97 (a + b) (Or.inr rfl) (by omega) (by omega) (by omega) hab
    rw [← caesarChar_lower (a + b) c hc.1 hc.2] at e
    have := h.2.1 hc
    exact Fin.ext (by omega)
  · have e := shiftChar_digit_val c (a + b) (by omega) (by omega) (by omega) (by omega)
    rw [← caesarChar_digit (a + b) c hc.1 hc.2] at e
    have := h.2.2 hc
    exact Fin.ext (by omega)
  · rw [caesarChar_of_not_alnum a c hc, caesarChar_of_not_alnum b c hc,
      caesarChar_of_not_alnum (a + b) c hc]

theorem caesarChar_26_letter (c : Byte)
    (hc : (65 ≤ c.val ∧ c.val ≤ 90) ∨ (97 ≤ c.val ∧ c.val ≤ 122)) : caesarChar 26 c = c := by
  rcases hc with hc | hc
  · have e := shiftChar_letter_val c 65 26 (Or.inl rfl) (by omega) (by omega) (by decide)
      (by decide)
    rw [← caesarChar_upper 26 c hc.1 hc.2] at e
    exact Fin.ext (by omega)
  · have e := shiftChar_letter_val c 97 26 (Or.inr rfl) (by omega) (by omega) (by decide)
      (by decide)
    rw [← caesarChar_lower 26 c hc.1 hc.2] at e
    exact Fin.ext (by omega)

theorem caesarChar_10_digit (c : Byte) (hc : 48 ≤ c.val ∧ c.val ≤ 57) :
    caesarChar 10 c = c := by
  have e := shiftChar_digit_val c 10 (by omega) (by omega) (by decide) (by decide)
  rw [← caesarChar_digit 10 c hc.1 hc.2] at e
  exact Fin.ext (by omega)

theorem map_eq_self_of_forall (f : Byte → Byte) (T : List Byte) (h : ∀ c ∈ T, f c = c) :
    T.map f = T := by
  induction T with
  | nil => rfl
  | cons c rest ih =>
    rw [List.map_cons, h c (List.mem_cons_self c rest),
      ih (fun d hd => h d (List.mem_cons_of_mem c hd))]

theorem caesarCipher_append (a b : List Byte) (s : Int) :
    caesarCipher (a ++ b) s = caesarCipher a s ++ caesarCipher b s := by
  simp only [caesarCipher_eq_map, List.map_append]

/-- A transformation that distributes over concatenation is not affected by the chunking. -/
theorem chunked_of_append (g : List Byte → List Byte)
    (hg : ∀ a b, g (a ++ b) = g a ++ g b) (hnil : g [] = []) (input : List Byte) :
    chunked g input = g input := by
  induction input using chunked.induct g with
  | case1 => rw [chunked_nil, hnil]
  | case2 input h ih =>
    rw [chunked_cons g input h, ih, ← hg, List.take_append_drop]

/-- A transformation that keeps the length and undoes itself is undone chunk by chunk. -/
theorem chunked_involutive (g : List Byte → List Byte)
    (hlen : ∀ c, (g c).length = c.length) (hinv : ∀ c, g (g c) = c) (input : List Byte) :
    chunked g (chunked g input) = input := by
  induction input using chunked.induct g with
  | case1 => rw [chunked_nil, chunked_nil]
  | case2 input h ih =>
    have hpos : 0 < input.length := List.length_pos.mpr h
    have hne : chunked g input ≠ [] := by
      intro h0
      have := chunked_length g hlen input
      rw [h0] at this
      simp at this
      omega
    have htl : (g (input.take MAX_INPUT_LENGTH)).length = min MAX_INPUT_LENGTH input.length := by
      rw [hlen, List.length_take]
    rw [chunked_cons g _ hne]
    rw [chunked_cons g input h]
    by_cases hle : input.length ≤ MAX_INPUT_LENGTH
    · have hd : input.drop MAX_INPUT_LENGTH = [] := List.drop_of_length_le hle
      have hl2 : (g (input.take MAX_INPUT_LENGTH)).length ≤ MAX_INPUT_LENGTH := by
        rw [htl]; omega
      rw [hd, chunked_nil, List.append_nil, List.take_of_length_le hl2,
        List.drop_of_length_le hl2, chunked_nil, List.append_nil, hinv,
        List.take_of_length_le hle]
    · have hl2 : (g (input.take MAX_INPUT_LENGTH)).length = MAX_INPUT_LENGTH := by
        rw [htl]; omega
      rw [List.take_left' hl2, List.drop_left' hl2, hinv, ih, List.take_append_drop]


/-! ## Parsing and printing the shift key -/

theorem digitByte_val (d : Nat) (h : d < 10) : (digitByte d).val = 48 + d := by
  show (48 + d) % 256 = 48 + d
  omega

theorem isdigit_digitByte (d : Nat) (h : d < 10) : isdigit (digitByte d) = true := by
  simp only [isdigit, digitByte_val d h, Bool.and_eq_true, decide_eq_true_eq]
  omega

theorem digitsValue_append_singleton (a : List Byte) (d : Byte) :
    digitsValue (a ++ [d]) = digitsValue a * 10 + ((d.val : Int) - 48) := by
  simp [digitsValue, List.foldl_append]

theorem digitsValue_digits (L : List Nat) (h : ∀ d ∈ L, d < 10) :
    digitsValue (L.reverse.map digitByte) = ((Nat.ofDigits 10 L : Nat) : Int) := by
  induction L with
  | nil => rfl
  | cons d t ih =>
    have hd : d < 10 := h d (List.mem_cons_self d t)
    rw [List.reverse_cons, List.map_append, List.map_cons, List.map_nil,
      digitsValue_append_singleton, ih (fun x hx => h x (List.mem_cons_of_mem d hx)),
      digitByte_val d hd, Nat.ofDigits_cons]
    push_cast
    omega

/-- The parser `stoi` on a non-empty run of digits, bare or after a minus sign. -/
theorem stoi_digits (ds : List Byte) (hne : ds ≠ []) (hall : ∀ d ∈ ds, isdigit d = true)
    (h0 : 0 ≤ digitsValue ds) :
    (digitsValue ds ≤ 2147483647 → stoi ds = .ok (digitsValue ds)) ∧
    (digitsValue ds ≤ 2147483648 → stoi (45 :: ds) = .ok (- digitsValue ds)) := by
  obtain ⟨d, rest, rfl⟩ := List.exists_cons_of_ne_nil hne
  have hd : isdigit d = true := hall d (List.mem_cons_self d rest)
  have hdv : 48 ≤ d.val ∧ d.val ≤ 57 := by
    simpa [isdigit] using hd
  have hsp : isspace d = false := by
    simp only [isspace, Bool.or_eq_false_iff, Bool.and_eq_false_iff, decide_eq_false_iff_not]
    omega
  have h45 : d ≠ 45 := fun h => by rw [h] at hdv; revert hdv; decide
  have h43 : d ≠ 43 := fun h => by rw [h] at hdv; revert hdv; decide
  have htw : (d :: rest).takeWhile isdigit = d :: rest := List.takeWhile_eq_self_iff.mpr hall
  have hsp45 : isspace 45 = false := by decide
  constructor
  · intro hhi
    have hr : ¬ (digitsValue (d :: rest) < -2147483648 ∨ 2147483647 < digitsValue (d :: rest)) := by
      omega
    simp [stoi, hsp, h45, h43, htw, hr]
  · intro hhi
    have hr : ¬ (-digitsValue (d :: rest) < -2147483648 ∨
        2147483647 < -digitsValue (d :: rest)) := by
      omega
    simp [stoi, hsp45, htw]
    omega

theorem stoi_to_string (k : Int) (h1 : -2147483648 ≤ k) (h2 : k ≤ 2147483647) :
    stoi (to_string k) = .ok k := by
  by_cases hk0 : k = 0
  · subst hk0; decide
  · have hn : k.natAbs ≠ 0 := fun h => hk0 (Int.natAbs_eq_zero.mp h)
    have hne : (Nat.digits 10 k.natAbs).reverse.map digitByte ≠ [] := by
      intro h
      have h3 := congrArg List.length h
      simp only [List.length_map, List.length_reverse, List.length_nil] at h3
      exact (Nat.digits_ne_nil_iff_ne_zero.mpr hn) (List.length_eq_zero.mp h3)
    have hlt : ∀ d ∈ Nat.digits 10 k.natAbs, d < 10 :=
      fun d hd => Nat.digits_lt_base (by decide) hd
    have hall : ∀ d ∈ (Nat.digits 10 k.natAbs).reverse.map digitByte, isdigit d = true := by
      intro d hd
      obtain ⟨x, hx, rfl⟩ := List.mem_map.mp hd
      exact isdigit_digitByte x (hlt x (List.mem_reverse.mp hx))
    have hv : digitsValue ((Nat.digits 10 k.natAbs).reverse.map digitByte)
        = ((k.natAbs : Nat) : Int) := by
      rw [digitsValue_digits _ hlt, Nat.ofDigits_digits]
    have hs := stoi_digits _ hne hall (by rw [hv]; omega)
    rw [hv] at hs
    by_cases hneg : k < 0
    · simp only [to_string, if_neg hk0, if_pos hneg]
      rw [hs.2 (by omega)]
      congr 1
      omega
    · simp only [to_string, if_neg hk0, if_neg hneg]
      rw [hs.1 (by omega)]
      congr 1
      omega

/-! ## The file loop with each cipher -/

theorem encryptFile_caesar_eq (D key : List Byte) (s : Int) (h : stoi key = .ok s) :
    encryptFile D key 1 = some (.ok (caesarCipher D s)) := by
  have hf : ∀ c : List Byte, c ≠ [] →
      encryptChunk key 1 c = .ok ((fun t => caesarCipher t s) c) := by
    intro c _
    simp [encryptChunk, h, encryptCaesar]
  have := fileLoop_eq_chunked _ _ hf (D.length + 1) D []
    (by simp only [MAX_INPUT_LENGTH]; omega)
  rw [chunked_of_append _ (fun a b => caesarCipher_append a b s) rfl] at this
  simpa [encryptFile] using this

theorem decryptFile_caesar_eq (D key : List Byte) (s : Int) (h : stoi key = .ok s) :
    decryptFile D key 1 = some (.ok (decryptCaesar D s)) := by
  have hf : ∀ c : List Byte, c ≠ [] →
      decryptChunk key 1 c = .ok ((fun t => decryptCaesar t s) c) := by
    intro c _
    simp [decryptChunk, h]
  have := fileLoop_eq_chunked _ _ hf (D.length + 1) D []
    (by simp only [MAX_INPUT_LENGTH]; omega)
  rw [chunked_of_append _ (fun a b => caesarCipher_append a b (wrap32 (-s))) rfl] at this
  simpa [decryptFile] using this

/-- A fault on the first chunk ends the loop with that fault. -/
theorem fileLoop_fault (f : List Byte → Except Fault (List Byte)) (input : List Byte)
    (hne : input ≠ []) (e : Fault) (hf : f (input.take MAX_INPUT_LENGTH) = .error e)
    (fuel : Nat) (out : List Byte) : fileLoop f (fuel + 1) input out = some (.error e) := by
  have hpos : 0 < input.length := List.length_pos.mpr hne
  have hcpos : 0 < (input.take MAX_INPUT_LENGTH).length := by
    rw [List.length_take, MAX_INPUT_LENGTH]
    omega
  simp only [fileLoop, hcpos, if_true, hf]

theorem encryptChunk_of_ne_one (key : List Byte) (method : Int) (hm : method ≠ 1) :
    encryptChunk key method = encryptChunk key 2 := by
  funext c
  simp [encryptChunk, hm]

theorem decryptChunk_of_ne_one (key : List Byte) (method : Int) (hm : method ≠ 1) :
    decryptChunk key method = decryptChunk key 2 := by
  funext c
  simp [decryptChunk, hm]

/-! ## The claims, continued -/

/-- C11. Full-cycle shifts are the identity: for every text `T1` made only of ASCII letters
`caesarCipher(T1, 26) = T1`, and for every text `T2` made only of ASCII digits
`caesarCipher(T2, 10) = T2`. -/
theorem caesar_full_cycle_identity (T1 T2 : List Byte)
    (h1 : ∀ c ∈ T1, (65 ≤ c.val ∧ c.val ≤ 90) ∨ (97 ≤ c.val ∧ c.val ≤ 122))
    (h2 : ∀ c ∈ T2, 48 ≤ c.val ∧ c.val ≤ 57) :
    caesarCipher T1 26 = T1 ∧ caesarCipher T2 10 = T2 := by
  constructor
  · rw [caesarCipher_eq_map]
    exact map_eq_self_of_forall _ T1 (fun c hc => caesarChar_26_letter c (h1 c hc))
  · rw [caesarCipher_eq_map]
    exact map_eq_self_of_forall _ T2 (fun c hc => caesarChar_10_digit c (h2 c hc))

set_option maxRecDepth 8000 in
/-- Witness of C11: "HelloWorld" with shift 26 and "0123456789" with shift 10. -/
theorem caesar_full_cycle_identity_witness :
    caesarCipher (bytes "HelloWorld") 26 = bytes "HelloWorld" ∧
    caesarCipher (bytes "0123456789") 10 = bytes "0123456789" :=
  caesar_full_cycle_identity (bytes "HelloWorld") (bytes "0123456789") (by decide) (by decide)

/-- C12. The Caesar cipher is chunk-boundary independent: for all texts `A`, `B` and every
shift `s`, `caesarCipher(A ++ B, s) = caesarCipher(A, s) ++ caesarCipher(B, s)`; and when the key
string is read by `std::stoi` as `s`, `encryptFile` with method 1 returns, and what its
1024-byte chunk loop writes for an input `D` is `caesarCipher(D, s)` on the whole input. -/
theorem caesar_chunk_independent (A B : List Byte) (s : Int) (D key : List Byte)
    (hkey : stoi key = .ok s) :
    caesarCipher (A ++ B) s = caesarCipher A s ++ caesarCipher B s ∧
    encryptFile D key 1 = some (.ok (caesarCipher D s)) :=
  ⟨caesarCipher_append A B s, encryptFile_caesar_eq D key s hkey⟩

/-- Witness of C12: "Hello, " and "World!" with shift 5, the key string being "5". -/
theorem caesar_chunk_independent_witness :
    stoi (bytes "5") = .ok 5 ∧
    caesarCipher (bytes "Hello, " ++ bytes "World!") 5
      = caesarCipher (bytes "Hello, ") 5 ++ caesarCipher (bytes "World!") 5 ∧
    encryptFile (bytes "Hello, World!") (bytes "5") 1
      = some (.ok (caesarCipher (bytes "Hello, World!") 5)) :=
  ⟨by decide, caesar_chunk_independent (bytes "Hello, ") (bytes "World!") 5
    (bytes "Hello, World!") (bytes "5") (by decide)⟩

/-- C13 as stated fails: with the method tag 3, the key "3" and the input "A", `encryptFile` and
`decryptFile` write "r" (`A XOR 3`), the output of the XOR method, where method 1 writes "D" and
"X". -/
theorem encryptFile_method_3_is_xor :
    encryptFile (bytes "A") (bytes "3") 3 = some (.ok (bytes "r")) ∧
    encryptFile (bytes "A") (bytes "3") 1 = some (.ok (bytes "D")) ∧
    encryptFile (bytes "A") (bytes "3") 3 ≠ encryptFile (bytes "A") (bytes "3") 1 ∧
    decryptFile (bytes "A") (bytes "3") 3 = some (.ok (bytes "r")) ∧
    decryptFile (bytes "A") (bytes "3") 1 = some (.ok (bytes "X")) ∧
    decryptFile (bytes "A") (bytes "3") 3 ≠ decryptFile (bytes "A") (bytes "3") 1 := by
  decide

/-- C13, amended. The fallback is made by the callers: for every method tag outside {1, 2}
entered at `handleFileEncryption` or `handleFileDecryption`, every `int` shift key and every
input, the handler replaces the tag by 1 before it calls `encryptFile` / `decryptFile`, the call
returns, and the data are transformed with the Caesar cipher, the same outcome as with the tag 1.
`encryptFile` and `decryptFile` themselves treat every method tag other than 1 as XOR: their
outcome for such a tag is that of method 2. -/
theorem unknown_method_falls_back_in_handler (choice : Int) (hc : choice < 1 ∨ 2 < choice)
    (shiftKey : Int) (hk1 : -2147483648 ≤ shiftKey) (hk2 : shiftKey ≤ 2147483647)
    (keyLine D key : List Byte) :
    handleFileEncryption choice D shiftKey keyLine
      = handleFileEncryption 1 D shiftKey keyLine ∧
    handleFileEncryption choice D shiftKey keyLine = some (.ok (encryptCaesar D shiftKey)) ∧
    handleFileDecryption choice D shiftKey keyLine
      = handleFileDecryption 1 D shiftKey keyLine ∧
    handleFileDecryption choice D shiftKey keyLine = some (.ok (decryptCaesar D shiftKey)) ∧
    encryptFile D key choice = encryptFile D key 2 ∧
    decryptFile D key choice = decryptFile D key 2 := by
  have hgate : (choice < 1 ∨ choice > 2) := by omega
  have hne : choice ≠ 1 := by omega
  have hs := stoi_to_string shiftKey hk1 hk2
  have he : handleFileEncryption choice D shiftKey keyLine
      = encryptFile D (to_string shiftKey) 1 := by
    simp [handleFileEncryption, hgate]
  have he1 : handleFileEncryption 1 D shiftKey keyLine
      = encryptFile D (to_string shiftKey) 1 := by
    simp [handleFileEncryption]
  have hd : handleFileDecryption choice D shiftKey keyLine
      = decryptFile D (to_string shiftKey) 1 := by
    simp [handleFileDecryption, hgate]
  have hd1 : handleFileDecryption 1 D shiftKey keyLine
      = decryptFile D (to_string shiftKey) 1 := by
    simp [handleFileDecryption]
  refine ⟨by rw [he, he1], ?_, by rw [hd, hd1], ?_, ?_, ?_⟩
  · rw [he, encryptFile_caesar_eq D _ shiftKey hs, encryptCaesar]
  · rw [hd, decryptFile_caesar_eq D _ shiftKey hs]
  · rw [encryptFile, encryptFile, encryptChunk_of_ne_one key choice hne]
  · rw [decryptFile, decryptFile, decryptChunk_of_ne_one key choice hne]

/-- Witness of the amended C13: the method tag 7, the shift key 3 and the input "Abc123". -/
theorem unknown_method_falls_back_in_handler_witness :
    ((7 : Int) < 1 ∨ (2 : Int) < 7) ∧
    handleFileEncryption 7 (bytes "Abc123") 3 (bytes "KEY")
      = handleFileEncryption 1 (bytes "Abc123") 3 (bytes "KEY") ∧
    handleFileEncryption 7 (bytes "Abc123") 3 (bytes "KEY")
      = some (.ok (encryptCaesar (bytes "Abc123") 3)) ∧
    handleFileDecryption 7 (bytes "Abc123") 3 (bytes "KEY")
      = handleFileDecryption 1 (bytes "Abc123") 3 (bytes "KEY") ∧
    handleFileDecryption 7 (bytes "Abc123") 3 (bytes "KEY")
      = some (.ok (decryptCaesar (bytes "Abc123") 3)) ∧
    encryptFile (bytes "Abc123") (bytes "3") 7 = encryptFile (bytes "Abc123") (bytes "3") 2 ∧
    decryptFile (bytes "Abc123") (bytes "3") 7 = decryptFile (bytes "Abc123") (bytes "3") 2 :=
  ⟨by decide, unknown_method_falls_back_in_handler 7 (by decide) 3 (by decide) (by decide)
    (bytes "KEY") (bytes "Abc123") (bytes "3")⟩

/-- C14 as stated fails: on the empty input with the key "abc", in which `std::stoi` finds no
number, `encryptFile` and `decryptFile` with method 1 run no chunk, never parse the key and
return success with nothing written. -/
theorem encryptFile_empty_input_bad_key_succeeds :
    stoi (bytes "abc") = .error .invalidArgument ∧
    encryptFile [] (bytes "abc") 1 = some (.ok []) ∧
    decryptFile [] (bytes "abc") 1 = some (.ok []) := by
  decide

/-- C14, amended. For every key string in which `std::stoi` finds no number (it throws
`std::invalid_argument`; "abc" is one) and every non-empty input byte sequence, `encryptFile` and
`decryptFile` with method 1 end with that exception on the first chunk instead of reporting
success. -/
theorem bad_rotation_key_throws (key : List Byte) (hkey : stoi key = .error .invalidArgument)
    (D : List Byte) (hD : D ≠ []) :
    encryptFile D key 1 = some (.error .invalidArgument) ∧
    decryptFile D key 1 = some (.error .invalidArgument) := by
  constructor
  · exact fileLoop_fault _ D hD _ (by simp [encryptChunk, hkey]) _ _
  · exact fileLoop_fault _ D hD _ (by simp [decryptChunk, hkey]) _ _

/-- Witness of the amended C14: the key "abc" and the input "x". -/
theorem bad_rotation_key_throws_witness :
    stoi (bytes "abc") = .error .invalidArgument ∧ bytes "x" ≠ [] ∧
    encryptFile (bytes "x") (bytes "abc") 1 = some (.error .invalidArgument) ∧
    decryptFile (bytes "x") (bytes "abc") 1 = some (.error .invalidArgument) :=
  ⟨by decide, by decide, bad_rotation_key_throws (bytes "abc") (by decide) (bytes "x")
    (by decide)⟩

/-- C15. File-level XOR round trip: for every byte sequence `D` and every non-empty key `K`,
the chunk loop of `encryptFile` with the XOR method returns some `E` of the length of `D`, and
the chunk loop of `decryptFile` on `E` with the same key returns exactly `D`. -/
theorem xor_file_loop_round_trip (D K : List Byte) (hK : K ≠ []) :
    ∃ E, encryptFile D K 2 = some (.ok E) ∧ E.length = D.length ∧
      decryptFile E K 2 = some (.ok D) := by
  refine ⟨chunked (keystream K 0) D, encryptFile_xor_eq D K hK 2 (by decide),
    chunked_length _ (fun c => keystream_length K c 0) D, ?_⟩
  rw [decryptFile_xor_eq _ K hK 2 (by decide),
    chunked_involutive _ (fun c => keystream_length K c 0)
      (fun c => keystream_involutive K c 0)]

/-- Witness of C15: "HELLO" under the key "KEY". -/
theorem xor_file_loop_round_trip_witness :
    bytes "KEY" ≠ [] ∧
    ∃ E, encryptFile (bytes "HELLO") (bytes "KEY") 2 = some (.ok E) ∧
      E.length = (bytes "HELLO").length ∧
      decryptFile E (bytes "KEY") 2 = some (.ok (bytes "HELLO")) :=
  ⟨by decide, xor_file_loop_round_trip (bytes "HELLO") (bytes "KEY") (by decide)⟩

/-- C16. Caesar round trip on small shifts: for every shift `S` with `-10 <= S <= 10` and every
text `T` (letters, digits and other bytes mixed), `decryptCaesar(encryptCaesar(T, S), S) = T`
under the truncating remainder of C++. -/
theorem caesar_round_trip_small_shift (S : Int) (h1 : -10 ≤ S) (h2 : S ≤ 10) (T : List Byte) :
    decryptCaesar (encryptCaesar T S) S = T := by
  rw [decryptCaesar, encryptCaesar, caesarCipher_eq_map, caesarCipher_eq_map, List.map_map]
  exact map_eq_self_of_forall _ T (fun c _ => caesarChar_round_trip S h1 h2 c)

/-- Witness of C16: "Hello, World! 2024" with shift -7. -/
theorem caesar_round_trip_small_shift_witness :
    (-10 : Int) ≤ -7 ∧ (-7 : Int) ≤ 10 ∧
    decryptCaesar (encryptCaesar (bytes "Hello, World! 2024") (-7)) (-7)
      = bytes "Hello, World! 2024" :=
  ⟨by decide, by decide,
    caesar_round_trip_small_shift (-7) (by decide) (by decide) (bytes "Hello, World! 2024")⟩

/-- C17 as stated fails: with `a = 1073741824` and `b = 1073741797`, both non-negative and
`a + b + 26 = 2147483647` within the `int` range, the two shifts in a row turn "Z" into "W", but
the single shift by `a + b` computes `25 + (a + b) + 26`, which is beyond the `int` range, and
gives "A" (the sum taken modulo `2^32`). -/
theorem caesar_compose_fails_at_int_max :
    (0 : Int) ≤ 1073741824 ∧ (0 : Int) ≤ 1073741797 ∧
    (1073741824 + 1073741797 + 26 : Int) ≤ 2147483647 ∧
    caesarCipher (caesarCipher (bytes "Z") 1073741824) 1073741797 = bytes "W" ∧
    caesarCipher (bytes "Z") (1073741824 + 1073741797) = bytes "A" ∧
    caesarCipher (caesarCipher (bytes "Z") 1073741824) 1073741797
      ≠ caesarCipher (bytes "Z") (1073741824 + 1073741797) := by
  decide

/-- C17, amended. Caesar shifts compose additively: for all non-negative shifts `a` and `b`
with `a + b + 51` within the 32-bit `int` range (the bias 26 and the largest letter offset 25) and
every text `T`, `caesarCipher(caesarCipher(T, a), b) = caesarCipher(T, a + b)`. -/
theorem caesar_compose_add (a b : Int) (ha : 0 ≤ a) (hb : 0 ≤ b)
    (hab : a + b + 51 ≤ 2147483647) (T : List Byte) :
    caesarCipher (caesarCipher T a) b = caesarCipher T (a + b) := by
  rw [caesarCipher_eq_map, caesarCipher_eq_map, caesarCipher_eq_map, List.map_map]
  apply List.map_congr_left
  intro c _
  exact caesarChar_compose a b ha hb (by omega) c

/-- Witness of the amended C17: "Abc xyz 789" shifted by 3 and then by 4. -/
theorem caesar_compose_add_witness :
    (0 : Int) ≤ 3 ∧ (0 : Int) ≤ 4 ∧ (3 + 4 + 51 : Int) ≤ 2147483647 ∧
    caesarCipher (caesarCipher (bytes "Abc xyz 789") 3) 4
      = caesarCipher (bytes "Abc xyz 789") (3 + 4) :=
  ⟨by decide, by decide, by decide,
    caesar_compose_add 3 4 (by decide) (by decide) (by decide) (bytes "Abc xyz 789")⟩

end Cryptex
